import Mathlib

/-!
Verification of the Allegro event-queue core (src/events.c): circular-buffer
management, source registration bookkeeping, and the degenerate (zero-timeout)
path of the timed-wait protocol.  The C code is shallowly embedded: the
`_AL_VECTOR` of events becomes a `List AllegroEvent` whose length is the
vector size (ring capacity); `_al_vector_alloc_back` appends one
uninitialized slot, modelled as a `defaultEvent`; pointers into the vector
become indices; `ALLEGRO_EVENT_SOURCE *` values become `Nat` identifiers.
Mutex and condition-variable operations are no-ops in this single-threaded
embedding (every public operation holds the one queue mutex for its whole
critical section, so its sequential semantics is exactly what a caller
observes).
-/

/-- Model of `ALLEGRO_EVENT`: the queue only ever inspects `any.source`;
the rest of the union is opaque payload, carried around by `copy_event`
(struct assignment) unchanged. -/
structure AllegroEvent where
  source : Nat
  payload : Nat
  deriving DecidableEq, Repr

/-- Content of an uninitialized vector slot (`_al_vector_alloc_back` does not
initialize the new element; no operation reads a slot before writing it, so
any fixed value is a faithful model). -/
def defaultEvent : AllegroEvent := ⟨0, 0⟩

/-- Model of `struct ALLEGRO_EVENT_QUEUE` (mutex and cond omitted). -/
structure EventQueue where
  sources : List Nat
  events : List AllegroEvent
  events_head : Nat
  events_tail : Nat
  deriving DecidableEq, Repr

/-- Embeds `_al_vector_size(&queue->events)`. -/
def al_vector_size (v : List AllegroEvent) : Nat := v.length

/-- Embeds `_al_vector_ref(&queue->events, i)` (reads slot `i`). -/
def al_vector_ref (v : List AllegroEvent) (i : Nat) : AllegroEvent :=
  v.getD i defaultEvent

/-- Embeds `al_create_event_queue`: init the sources vector empty, init the
events vector and alloc_back one (uninitialized) slot, head = tail = 0. -/
def al_create_event_queue : EventQueue :=
  { sources := []
    events := [defaultEvent]
    events_head := 0
    events_tail := 0 }

/-- Embeds `al_event_queue_is_empty`. -/
def al_event_queue_is_empty (queue : EventQueue) : Bool :=
  queue.events_head == queue.events_tail

/-- Embeds `circ_array_next`: next index in the circular array. -/
def circ_array_next (v : List AllegroEvent) (i : Nat) : Nat :=
  (i + 1) % al_vector_size v

/-- Embeds `get_next_event_if_any`: returns the event at the tail (as a value:
the C function returns a pointer whose pointee the caller copies before any
further queue mutation) or `none` when empty; when `delete`, advances tail. -/
def get_next_event_if_any (queue : EventQueue) (del : Bool) :
    Option AllegroEvent × EventQueue :=
  if al_event_queue_is_empty queue then
    (none, queue)
  else
    let event := al_vector_ref queue.events queue.events_tail
    if del then
      (some event,
        { queue with
            events_tail := circ_array_next queue.events queue.events_tail })
    else
      (some event, queue)

/-- Embeds `get_peek_or_drop_next_event`.  `do_copy` models the caller's
`ret_event` pointer: `none` for NULL, `some buf` for a pointer at a buffer
currently holding `buf`; the middle component of the result is the buffer
after the call (so an untouched buffer comes back unchanged). -/
def get_peek_or_drop_next_event (queue : EventQueue)
    (do_copy : Option AllegroEvent) (del : Bool) :
    Bool × Option AllegroEvent × EventQueue :=
  match get_next_event_if_any queue del with
  | (some next_event, q) =>
      (true, (match do_copy with
              | some _ => some next_event
              | none => none), q)
  | (none, q) => (false, do_copy, q)

/-- Embeds `al_get_next_event` (ret_event is non-NULL, holding `ret_event`
before the call): result flag, the buffer after the call, the queue after. -/
def al_get_next_event (queue : EventQueue) (ret_event : AllegroEvent) :
    Bool × AllegroEvent × EventQueue :=
  match get_peek_or_drop_next_event queue (some ret_event) true with
  | (b, buf, q) => (b, buf.getD ret_event, q)

/-- Embeds `al_peek_next_event`. -/
def al_peek_next_event (queue : EventQueue) (ret_event : AllegroEvent) :
    Bool × AllegroEvent × EventQueue :=
  match get_peek_or_drop_next_event queue (some ret_event) false with
  | (b, buf, q) => (b, buf.getD ret_event, q)

/-- Embeds `al_drop_next_event` (NULL `do_copy`). -/
def al_drop_next_event (queue : EventQueue) : EventQueue :=
  (get_peek_or_drop_next_event queue none true).2.2

/-- Embeds `al_flush_event_queue`. -/
def al_flush_event_queue (queue : EventQueue) : EventQueue :=
  { queue with events_head := 0, events_tail := 0 }

/-- Embeds `expand_events_array`: double the vector by alloc_back of
uninitialized slots; if the live range wraps (`head < tail`), copy the
wrapped elements `[0, head)` to `[old_size, old_size + head)` and rebase
head. -/
def expand_events_array (queue : EventQueue) : EventQueue :=
  let old_size := al_vector_size queue.events
  let new_size := old_size * 2
  let grown := queue.events ++ List.replicate (new_size - old_size) defaultEvent
  if queue.events_head < queue.events_tail then
    { queue with
        events := (List.range queue.events_head).foldl
          (fun acc i => acc.set (old_size + i) (al_vector_ref acc i)) grown
        events_head := queue.events_head + old_size }
  else
    { queue with events := grown }

/-- Embeds `alloc_event`: grow when advancing head would reach tail, then
hand out the slot at head (modelled by its index) and advance head. -/
def alloc_event (queue : EventQueue) : Nat × EventQueue :=
  let adv_head := circ_array_next queue.events queue.events_head
  if adv_head = queue.events_tail then
    let q := expand_events_array queue
    let adv_head2 := circ_array_next q.events q.events_head
    (q.events_head, { q with events_head := adv_head2 })
  else
    (queue.events_head, { queue with events_head := adv_head })

/-- Embeds `_al_event_queue_push_event`: alloc a slot, `copy_event` the
pushed event into it (the condition broadcast has no sequential effect). -/
def al_event_queue_push_event (queue : EventQueue)
    (orig_event : AllegroEvent) : EventQueue :=
  match alloc_event queue with
  | (idx, q) => { q with events := q.events.set idx orig_event }

/-- Fuel-indexed walk of the circular array from index `i` up to (but not
including) `head`, as done by the `while (i != queue->events_head)` loops of
`contains_event_of_source` and `discard_events_of_source`.  For a
well-formed queue, fuel equal to the capacity always suffices. -/
def ringRange (c head : Nat) : Nat → Nat → List Nat
  | _, 0 => []
  | i, fuel + 1 => if i = head then [] else i :: ringRange c head ((i + 1) % c) fuel

/-- Indices of the live (unread) slots, tail first. -/
def liveIdx (queue : EventQueue) : List Nat :=
  ringRange (al_vector_size queue.events) queue.events_head
    queue.events_tail (al_vector_size queue.events)

/-- The unread events, oldest first (verification-side view of the ring). -/
def liveEvents (queue : EventQueue) : List AllegroEvent :=
  (liveIdx queue).map (fun i => al_vector_ref queue.events i)

/-- Embeds `contains_event_of_source`: linear scan from tail to head. -/
def contains_event_of_source (queue : EventQueue) (source : Nat) : Bool :=
  (liveIdx queue).any (fun i => (al_vector_ref queue.events i).source == source)

/-- Embeds the helper `pot`, written with explicit fuel (`y` at least doubles
from 1 each iteration, and `2 ^ x ≥ x`, so `x` iterations always reach the
fixpoint the C while-loop reaches). -/
def potAux : Nat → Nat → Nat → Nat
  | 0, _, y => y
  | fuel + 1, x, y => if y < x then potAux fuel x (y * 2) else y

/-- Embeds `pot`: smallest power of two that is at least `x`. -/
def pot (x : Nat) : Nat := potAux x x 1

/-- Embeds `discard_events_of_source`: if no event of the source is queued,
return unchanged; otherwise rebuild the events vector by copying, in ring
order, every live event of a different source, reset tail to 0, set head to
the retained count, and pad the vector with uninitialized slots up to the
next power of two above the retained count. -/
def discard_events_of_source (queue : EventQueue) (source : Nat) : EventQueue :=
  if contains_event_of_source queue source then
    let old_events := queue.events
    let kept := (liveIdx queue).foldl
      (fun acc i =>
        let old_event := al_vector_ref old_events i
        if old_event.source ≠ source then acc ++ [old_event] else acc) []
    let old_size := kept.length
    let new_size := pot (old_size + 1)
    { queue with
        events := kept ++ List.replicate (new_size - old_size) defaultEvent
        events_tail := 0
        events_head := old_size }
  else
    queue

/-- Embeds `al_register_event_source`.  The Bool records whether
`_al_event_source_on_registration_to_queue` was invoked (it is, exactly when
the source was not already in the sources vector). -/
def al_register_event_source (queue : EventQueue) (source : Nat) :
    EventQueue × Bool :=
  if queue.sources.contains source then
    (queue, false)
  else
    ({ queue with sources := queue.sources ++ [source] }, true)

/-- Embeds `al_unregister_event_source`: `_al_vector_find_and_delete` removes
the source from the sources vector if present and reports whether it found
it; only then is the source notified and `discard_events_of_source` run.
The Bool records whether `_al_event_source_on_unregistration_from_queue`
was invoked. -/
def al_unregister_event_source (queue : EventQueue) (source : Nat) :
    EventQueue × Bool :=
  let found := queue.sources.contains source
  let q1 := { queue with sources := queue.sources.erase source }
  if found then
    (discard_events_of_source q1 source, true)
  else
    (q1, false)

/-- Modelled from the spec: `al_init_timeout` (not under src/) converts a
relative duration into an absolute deadline; we keep the relative duration
(an integer, `≤ 0` meaning already expired).  `secs` models the C float
argument of `al_wait_for_event_timed`. -/
def al_init_timeout (secs : Int) : Int := secs

/-- Modelled from the spec: `_al_cond_timedwait` (threading primitive, not
under src/) returns -1 when the timeout has expired; per the spec a
zero-or-negative timeout "degenerates to a single non-blocking check", i.e.
the wait on an already-expired deadline returns -1 immediately, blocking
nobody and changing no queue state.  The positive-timeout blocking regime
involves real time and other threads and is outside this model. -/
def al_cond_timedwait (timeout : Int) : Int :=
  if timeout ≤ 0 then -1 else 0

/-- Embeds `do_wait_for_event` in the degenerate regime: while the queue is
empty and the wait has not reported -1, wait; on timeout return false with
nothing consumed; otherwise pop into `ret_event` when it is non-NULL (the
queue is non-empty at that point, so `get_next_event_if_any` succeeds).
A result of `none` marks the genuinely blocking case (empty queue, positive
timeout), which the single-threaded model does not cover. -/
def do_wait_for_event (queue : EventQueue) (ret_event : Option AllegroEvent)
    (timeout : Int) : Option (Bool × Option AllegroEvent × EventQueue) :=
  if al_event_queue_is_empty queue then
    if al_cond_timedwait timeout = -1 then
      some (false, ret_event, queue)
    else
      none
  else
    match ret_event with
    | some buf =>
        (match get_next_event_if_any queue true with
         | (some next_event, q) => some (true, some next_event, q)
         | (none, q) => some (true, some buf, q))
    | none => some (true, none, queue)

/-- Embeds `al_wait_for_event_timed`: a negative `secs` is clamped to a zero
timeout, then `do_wait_for_event` runs. -/
def al_wait_for_event_timed (queue : EventQueue)
    (ret_event : Option AllegroEvent) (secs : Int) :
    Option (Bool × Option AllegroEvent × EventQueue) :=
  let timeout := if secs < 0 then al_init_timeout 0 else al_init_timeout secs
  do_wait_for_event queue ret_event timeout

/-- Number of unread events seen from index `i` (closed form of the walk
length): distance from `i` forward to `head` around a ring of size `c`. -/
def ringDist (c i head : Nat) : Nat :=
  if i ≤ head then head - i else head + c - i

/-- Well-formedness of the circular buffer: head and tail are in-range
indices (capacity is positive as a consequence). -/
def WF (queue : EventQueue) : Prop :=
  queue.events_head < queue.events.length ∧
  queue.events_tail < queue.events.length

/-- The circular-buffer invariant of the spec: capacity a power of two,
`C ≥ 1`, indices in range, and logical size `(head - tail) mod C ≤ C - 1`. -/
def BufInv (queue : EventQueue) : Prop :=
  (∃ k, queue.events.length = 2 ^ k) ∧
  1 ≤ queue.events.length ∧
  queue.events_head < queue.events.length ∧
  queue.events_tail < queue.events.length ∧
  (queue.events_head + queue.events.length - queue.events_tail) %
      queue.events.length ≤ queue.events.length - 1

/-- Iterated push, in order (`push(e1); push(e2); ...`). -/
def pushList (queue : EventQueue) (es : List AllegroEvent) : EventQueue :=
  es.foldl al_event_queue_push_event queue

/-- `n` successive `al_get_next_event` calls, collecting the successfully
returned events in order (stopping early on failure). -/
def popN : EventQueue → Nat → List AllegroEvent × EventQueue
  | q, 0 => ([], q)
  | q, n + 1 =>
    match al_get_next_event q defaultEvent with
    | (true, e, q1) =>
        match popN q1 n with
        | (rest, qf) => (e :: rest, qf)
    | (false, _, q1) => ([], q1)

/-! ### Basic facts about the embedded primitives -/

theorem vref_set_self {v : List AllegroEvent} {i : Nat} (h : i < v.length)
    (a : AllegroEvent) : al_vector_ref (v.set i a) i = a := by
  simp [al_vector_ref, List.getD_eq_getElem?_getD, List.getElem?_set_self h]

theorem vref_set_ne {v : List AllegroEvent} {i j : Nat} (h : i ≠ j)
    (a : AllegroEvent) : al_vector_ref (v.set i a) j = al_vector_ref v j := by
  simp [al_vector_ref, List.getD_eq_getElem?_getD, List.getElem?_set_ne h]

theorem vref_append_left {v w : List AllegroEvent} {i : Nat}
    (h : i < v.length) : al_vector_ref (v ++ w) i = al_vector_ref v i := by
  simp [al_vector_ref, List.getD_eq_getElem?_getD, List.getElem?_append, h]

theorem vref_append_right {v w : List AllegroEvent} {i : Nat}
    (h : v.length ≤ i) :
    al_vector_ref (v ++ w) i = al_vector_ref w (i - v.length) := by
  simp [al_vector_ref, List.getD_eq_getElem?_getD, List.getElem?_append_right h]

theorem potAux_ge (fuel x y : Nat) (h : x ≤ y * 2 ^ fuel) :
    x ≤ potAux fuel x y := by
  induction fuel generalizing y with
  | zero => simpa [potAux] using h
  | succ f ih =>
      by_cases hy : y < x
      · simp only [potAux, if_pos hy]
        refine ih (y * 2) ?_
        have he : y * 2 * 2 ^ f = y * 2 ^ (f + 1) := by ring
        omega
      · simp only [potAux, if_neg hy]
        omega

theorem potAux_pow2 (fuel x j : Nat) :
    ∃ k, potAux fuel x (2 ^ j) = 2 ^ k := by
  induction fuel generalizing j with
  | zero => exact ⟨j, rfl⟩
  | succ f ih =>
      by_cases hy : 2 ^ j < x
      · simp only [potAux, if_pos hy]
        have : (2 : Nat) ^ j * 2 = 2 ^ (j + 1) := by ring
        rw [this]; exact ih (j + 1)
      · exact ⟨j, by simp [potAux, if_neg hy]⟩

theorem potAux_le_pow2 (fuel x j k : Nat) (hx : x ≤ 2 ^ k) (hj : j ≤ k) :
    potAux fuel x (2 ^ j) ≤ 2 ^ k := by
  induction fuel generalizing j with
  | zero =>
      simpa [potAux] using Nat.pow_le_pow_right (by norm_num) hj
  | succ f ih =>
      by_cases hy : 2 ^ j < x
      · simp only [potAux, if_pos hy]
        have hjk : j < k := by
          by_contra hc
          have : j = k := by omega
          subst this; omega
        have : (2 : Nat) ^ j * 2 = 2 ^ (j + 1) := by ring
        rw [this]; exact ih (j + 1) hjk
      · simpa [potAux, if_neg hy] using Nat.pow_le_pow_right (by norm_num) hj

theorem pot_ge (x : Nat) : x ≤ pot x := by
  have : x ≤ 1 * 2 ^ x := by
    have := Nat.lt_two_pow x; omega
  exact potAux_ge x x 1 this

theorem pot_pow2 (x : Nat) : ∃ k, pot x = 2 ^ k := by
  have h : (1 : Nat) = 2 ^ 0 := rfl
  unfold pot; rw [h]; exact potAux_pow2 x x 0

theorem pot_le_pow2 {x k : Nat} (hx : x ≤ 2 ^ k) : pot x ≤ 2 ^ k := by
  have h : (1 : Nat) = 2 ^ 0 := rfl
  unfold pot; rw [h]; exact potAux_le_pow2 x x 0 k hx (Nat.zero_le k)

theorem pot_pos (x : Nat) : 1 ≤ pot x := by
  obtain ⟨k, hk⟩ := pot_pow2 x
  rw [hk]; exact Nat.one_le_two_pow

/-! ### The ring walk: closed form -/

theorem ringDist_lt {c i head : Nat} (hi : i < c) (hh : head < c) :
    ringDist c i head < c := by
  unfold ringDist; split <;> omega

theorem ringDist_eq_zero_iff {c i head : Nat} (hi : i < c) (hh : head < c) :
    ringDist c i head = 0 ↔ i = head := by
  unfold ringDist; split <;> omega

theorem ringDist_step {c i head : Nat} (hi : i < c) (hh : head < c)
    (hne : i ≠ head) :
    ringDist c ((i + 1) % c) head + 1 = ringDist c i head := by
  rcases Nat.lt_or_ge (i + 1) c with h1 | h1
  · rw [Nat.mod_eq_of_lt h1]
    unfold ringDist; split <;> split <;> omega
  · have hic : i + 1 = c := by omega
    have : (i + 1) % c = 0 := by rw [hic]; exact Nat.mod_self c
    rw [this]
    unfold ringDist; split <;> split <;> omega

theorem ringRange_closed (c head : Nat) (hh : head < c) :
    ∀ fuel i, i < c → ringDist c i head ≤ fuel →
    ringRange c head i fuel =
      (List.range (ringDist c i head)).map (fun k => (i + k) % c) := by
  intro fuel
  induction fuel with
  | zero =>
      intro i hi hd
      have h0 : ringDist c i head = 0 := by omega
      simp [ringRange, h0]
  | succ f ih =>
      intro i hi hd
      by_cases hne : i = head
      · subst hne
        simp [ringRange, ringDist]
      · have hstep := ringDist_step hi hh hne
        have hi1 : (i + 1) % c < c := Nat.mod_lt _ (by omega)
        have hd1 : ringDist c ((i + 1) % c) head ≤ f := by omega
        have hpos : 1 ≤ ringDist c i head := by
          rcases Nat.eq_zero_or_pos (ringDist c i head) with h | h
          · exact absurd ((ringDist_eq_zero_iff hi hh).mp h) hne
          · omega
        simp only [ringRange, if_neg hne]
        rw [ih ((i + 1) % c) hi1 hd1]
        have hsucc : ringDist c i head = ringDist c ((i + 1) % c) head + 1 := by
          omega
        rw [hsucc, List.range_succ_eq_map]
        simp only [List.map_cons, List.map_map]
        have hhd : (i + 0) % c = i := by
          rw [Nat.add_zero]; exact Nat.mod_eq_of_lt hi
        have hfn : ((fun k => (i + k) % c) ∘ Nat.succ) =
            (fun k => ((i + 1) % c + k) % c) := by
          funext k
          simp only [Function.comp]
          rw [Nat.mod_add_mod]
          congr 1
          omega
        rw [hhd, hfn]

theorem add_mod_inj {c t k d : Nat} (hk : k < c) (hd : d < c)
    (h : (t + k) % c = (t + d) % c) : k = d := by
  have h2 : Nat.ModEq c k d := Nat.ModEq.add_left_cancel' t h
  unfold Nat.ModEq at h2
  rw [Nat.mod_eq_of_lt hk, Nat.mod_eq_of_lt hd] at h2
  exact h2

/-! ### The live range of a well-formed queue -/

theorem liveIdx_closed (q : EventQueue) (hwf : WF q) :
    liveIdx q =
      (List.range (ringDist q.events.length q.events_tail q.events_head)).map
        (fun k => (q.events_tail + k) % q.events.length) := by
  obtain ⟨hh, ht⟩ := hwf
  have hd := ringDist_lt ht hh
  exact ringRange_closed q.events.length q.events_head hh q.events.length
    q.events_tail ht (by omega)

theorem liveEvents_closed (q : EventQueue) (hwf : WF q) :
    liveEvents q =
      (List.range (ringDist q.events.length q.events_tail q.events_head)).map
        (fun k =>
          al_vector_ref q.events ((q.events_tail + k) % q.events.length)) := by
  unfold liveEvents
  rw [liveIdx_closed q hwf, List.map_map]
  rfl

theorem liveEvents_length (q : EventQueue) (hwf : WF q) :
    (liveEvents q).length =
      ringDist q.events.length q.events_tail q.events_head := by
  rw [liveEvents_closed q hwf]
  simp

theorem is_empty_iff_live_nil (q : EventQueue) (hwf : WF q) :
    al_event_queue_is_empty q = true ↔ liveEvents q = [] := by
  obtain ⟨hh, ht⟩ := hwf
  have hlen := liveEvents_length q ⟨hh, ht⟩
  constructor
  · intro h
    have he : q.events_head = q.events_tail := by
      simpa [al_event_queue_is_empty] using h
    have h0 : ringDist q.events.length q.events_tail q.events_head = 0 := by
      rw [(ringDist_eq_zero_iff ht hh)]
      omega
    have : (liveEvents q).length = 0 := by omega
    exact List.length_eq_zero.mp this
  · intro h
    have h0 : ringDist q.events.length q.events_tail q.events_head = 0 := by
      rw [h] at hlen; simpa using hlen.symm
    have := (ringDist_eq_zero_iff ht hh).mp h0
    simp [al_event_queue_is_empty]
    omega

/-! ### Popping and peeking -/

theorem get_next_event_pop (q : EventQueue) (hwf : WF q)
    (e : AllegroEvent) (rest : List AllegroEvent)
    (hl : liveEvents q = e :: rest) :
    get_next_event_if_any q true =
      (some e,
        { q with events_tail := circ_array_next q.events q.events_tail }) ∧
    liveEvents
      { q with events_tail := circ_array_next q.events q.events_tail } = rest ∧
    WF { q with events_tail := circ_array_next q.events q.events_tail } := by
  obtain ⟨hh, ht⟩ := hwf
  have hC : 1 ≤ q.events.length := by omega
  have hnonnil : liveEvents q ≠ [] := by rw [hl]; simp
  have hne : al_event_queue_is_empty q = false := by
    rcases Bool.eq_false_or_eq_true (al_event_queue_is_empty q) with h | h
    · exact absurd ((is_empty_iff_live_nil q ⟨hh, ht⟩).mp h) hnonnil
    · exact h
  have hth : q.events_tail ≠ q.events_head := by
    intro hc
    simp [al_event_queue_is_empty] at hne
    omega
  set c := q.events.length with hc
  set t := q.events_tail with htl
  set hd := q.events_head with hhd
  have hdist1 := ringDist_step ht hh hth
  have hdpos : 1 ≤ ringDist c t hd := by
    rcases Nat.eq_zero_or_pos (ringDist c t hd) with h | h
    · exact absurd ((ringDist_eq_zero_iff ht hh).mp h) hth
    · omega
  -- identify the head element
  have hclosed := liveEvents_closed q ⟨hh, ht⟩
  rw [hl] at hclosed
  have hd_eq : ringDist c t hd = (ringDist c ((t + 1) % c) hd) + 1 := by omega
  rw [hd_eq, List.range_succ_eq_map, List.map_cons, List.map_map] at hclosed
  have he0 : e = al_vector_ref q.events t := by
    have := (List.cons.injEq _ _ _ _).mp hclosed
    rw [this.1]
    congr 1
    rw [Nat.add_zero]
    exact Nat.mod_eq_of_lt ht
  have hrest : rest =
      (List.range (ringDist c ((t + 1) % c) hd)).map
        ((fun k => al_vector_ref q.events ((t + k) % c)) ∘ Nat.succ) := by
    exact ((List.cons.injEq _ _ _ _).mp hclosed).2
  have ht1 : (t + 1) % c < c := Nat.mod_lt _ (by omega)
  have hwf2 : WF { q with events_tail := circ_array_next q.events q.events_tail } := by
    refine ⟨hh, ?_⟩
    simp only [circ_array_next, al_vector_size]
    exact Nat.mod_lt _ (by omega)
  refine ⟨?_, ?_, hwf2⟩
  · rw [he0]
    simp [get_next_event_if_any, hne]
  · have hclosed2 := liveEvents_closed
      { q with events_tail := circ_array_next q.events q.events_tail } hwf2
    rw [hclosed2, hrest]
    simp only [circ_array_next, al_vector_size]
    apply List.map_congr_left
    intro k _
    simp only [Function.comp]
    rw [Nat.mod_add_mod]
    congr 2
    omega

theorem get_next_event_peek (q : EventQueue) (hwf : WF q)
    (e : AllegroEvent) (rest : List AllegroEvent)
    (hl : liveEvents q = e :: rest) :
    get_next_event_if_any q false = (some e, q) := by
  obtain ⟨hh, ht⟩ := hwf
  have hnonnil : liveEvents q ≠ [] := by rw [hl]; simp
  have hne : al_event_queue_is_empty q = false := by
    rcases Bool.eq_false_or_eq_true (al_event_queue_is_empty q) with h | h
    · exact absurd ((is_empty_iff_live_nil q ⟨hh, ht⟩).mp h) hnonnil
    · exact h
  have he0 : e = al_vector_ref q.events q.events_tail := by
    have hclosed := liveEvents_closed q ⟨hh, ht⟩
    have hth : q.events_tail ≠ q.events_head := by
      intro hc
      simp [al_event_queue_is_empty] at hne
      omega
    have hdpos : 1 ≤ ringDist q.events.length q.events_tail q.events_head := by
      rcases Nat.eq_zero_or_pos
        (ringDist q.events.length q.events_tail q.events_head) with h | h
      · exact absurd ((ringDist_eq_zero_iff ht hh).mp h) hth
      · omega
    rw [hl] at hclosed
    have hd_eq : ringDist q.events.length q.events_tail q.events_head =
        (ringDist q.events.length q.events_tail q.events_head - 1) + 1 := by
      omega
    rw [hd_eq, List.range_succ_eq_map, List.map_cons] at hclosed
    have := (List.cons.injEq _ _ _ _).mp hclosed
    rw [this.1]
    congr 1
    rw [Nat.add_zero]
    exact Nat.mod_eq_of_lt ht
  rw [he0]
  simp [get_next_event_if_any, hne]

/-! ### Growth of the circular array -/

theorem relocate_fold (ev : List AllegroEvent) (n : Nat) (hn : n ≤ ev.length) :
    (List.range n).foldl
      (fun acc i => acc.set (ev.length + i) (al_vector_ref acc i))
      (ev ++ List.replicate ev.length defaultEvent) =
    ev ++ ev.take n ++ List.replicate (ev.length - n) defaultEvent := by
  induction n with
  | zero => simp
  | succ m ih =>
      have hm : m ≤ ev.length := by omega
      have hmlt : m < ev.length := by omega
      rw [List.range_succ, List.foldl_append, ih hm]
      simp only [List.foldl_cons, List.foldl_nil]
      have hval : al_vector_ref
          (ev ++ ev.take m ++ List.replicate (ev.length - m) defaultEvent) m =
          al_vector_ref ev m := by
        rw [List.append_assoc]
        exact vref_append_left hmlt
      rw [hval]
      rw [List.append_assoc, List.set_append, if_neg (by omega)]
      have hsub : ev.length + m - ev.length = m := by omega
      rw [hsub]
      rw [List.set_append, if_neg (by simp [List.length_take])]
      have hsub2 : m - (ev.take m).length = 0 := by
        simp [List.length_take]; omega
      rw [hsub2]
      have hrep : List.replicate (ev.length - m) defaultEvent =
          defaultEvent :: List.replicate (ev.length - (m + 1)) defaultEvent := by
        have : ev.length - m = (ev.length - (m + 1)) + 1 := by omega
        rw [this, List.replicate_succ]
      rw [hrep]
      simp only [List.set_cons_zero]
      have htake : ev.take (m + 1) = ev.take m ++ [al_vector_ref ev m] := by
        rw [List.take_succ]
        simp [List.getElem?_eq_getElem hmlt, al_vector_ref,
          List.getD_eq_getElem?_getD]
      rw [htake]
      simp [List.append_assoc]

theorem expand_eq_nonwrap (q : EventQueue)
    (hnw : ¬ q.events_head < q.events_tail) :
    expand_events_array q =
      { q with events :=
          q.events ++ List.replicate q.events.length defaultEvent } := by
  unfold expand_events_array
  simp only [al_vector_size]
  rw [if_neg hnw]
  have h2 : q.events.length * 2 - q.events.length = q.events.length := by omega
  rw [h2]

theorem expand_eq_wrap (q : EventQueue) (hw : q.events_head < q.events_tail)
    (ht : q.events_tail < q.events.length) :
    expand_events_array q =
      { q with
          events := q.events ++ q.events.take q.events_head ++
            List.replicate (q.events.length - q.events_head) defaultEvent
          events_head := q.events_head + q.events.length } := by
  unfold expand_events_array
  simp only [al_vector_size]
  rw [if_pos hw]
  have h2 : q.events.length * 2 - q.events.length = q.events.length := by omega
  rw [h2]
  rw [relocate_fold q.events q.events_head (by omega)]

theorem vref_take {ev : List AllegroEvent} {n j : Nat} (hj : j < n) :
    al_vector_ref (ev.take n) j = al_vector_ref ev j := by
  simp [al_vector_ref, List.getD_eq_getElem?_getD, List.getElem?_take, hj]

theorem ringDist_add {c t h : Nat} (ht : t < c) (hh : h < c) :
    (t + ringDist c t h) % c = h := by
  unfold ringDist
  split
  · have he : t + (h - t) = h := by omega
    rw [he, Nat.mod_eq_of_lt hh]
  · have he : t + (h + c - t) = h + c := by omega
    rw [he, Nat.add_mod_right, Nat.mod_eq_of_lt hh]

theorem ringDist_head_step {c t h : Nat} (ht : t < c) (hh : h < c)
    (hfree : (h + 1) % c ≠ t) :
    ringDist c t ((h + 1) % c) = ringDist c t h + 1 := by
  rcases Nat.lt_or_ge (h + 1) c with h1 | h1
  · rw [Nat.mod_eq_of_lt h1] at hfree ⊢
    unfold ringDist
    split <;> split <;> omega
  · have hc : h + 1 = c := by omega
    have h0 : (h + 1) % c = 0 := by rw [hc, Nat.mod_self]
    rw [h0] at hfree ⊢
    unfold ringDist
    split <;> split <;> omega

theorem idx_ne_head {c t h k : Nat} (ht : t < c) (hh : h < c)
    (hk : k < ringDist c t h) : (t + k) % c ≠ h := by
  intro heq
  have hadd := ringDist_add ht hh
  have hdlt := ringDist_lt ht hh
  have : k = ringDist c t h :=
    add_mod_inj (by omega) hdlt (by rw [heq, hadd])
  omega

theorem live_set_advance (s : List Nat) (ev : List AllegroEvent) (h t : Nat)
    (e : AllegroEvent) (hh : h < ev.length) (ht : t < ev.length)
    (hfree : (h + 1) % ev.length ≠ t) :
    liveEvents ⟨s, ev.set h e, (h + 1) % ev.length, t⟩ =
      liveEvents ⟨s, ev, h, t⟩ ++ [e] ∧
    WF ⟨s, ev.set h e, (h + 1) % ev.length, t⟩ := by
  have hc : 1 ≤ ev.length := by omega
  have hlen : (ev.set h e).length = ev.length := List.length_set ev h e
  have hh1 : (h + 1) % ev.length < ev.length := Nat.mod_lt _ (by omega)
  have hwf2 : WF ⟨s, ev.set h e, (h + 1) % ev.length, t⟩ := by
    refine ⟨?_, ?_⟩ <;> simp only [hlen] <;> omega
  refine ⟨?_, hwf2⟩
  have hc1 := liveEvents_closed ⟨s, ev.set h e, (h + 1) % ev.length, t⟩ hwf2
  have hc0 := liveEvents_closed ⟨s, ev, h, t⟩ ⟨hh, ht⟩
  simp only [hlen] at hc1
  rw [hc1, hc0]
  have hstep := ringDist_head_step ht hh hfree
  rw [hstep, List.range_succ, List.map_append]
  congr 1
  · apply List.map_congr_left
    intro k hk
    simp only [List.mem_range] at hk
    exact vref_set_ne (fun hcontra =>
      idx_ne_head ht hh hk (by rw [← hcontra])) e
  · simp only [List.map_cons, List.map_nil]
    rw [ringDist_add ht hh]
    rw [vref_set_self hh e]

theorem expand_live (q : EventQueue) (hwf : WF q) :
    (expand_events_array q).events.length = 2 * q.events.length ∧
    (expand_events_array q).events_tail = q.events_tail ∧
    (expand_events_array q).sources = q.sources ∧
    WF (expand_events_array q) ∧
    liveEvents (expand_events_array q) = liveEvents q := by
  obtain ⟨hh, ht⟩ := hwf
  by_cases hw : q.events_head < q.events_tail
  · rw [expand_eq_wrap q hw ht]
    have hhC : q.events_head ≤ q.events.length := by omega
    have hlen : (q.events ++ q.events.take q.events_head ++
        List.replicate (q.events.length - q.events_head) defaultEvent).length =
        2 * q.events.length := by
      simp [List.length_take]
      omega
    have hwf2 : WF { q with
        events := q.events ++ q.events.take q.events_head ++
          List.replicate (q.events.length - q.events_head) defaultEvent
        events_head := q.events_head + q.events.length } := by
      refine ⟨?_, ?_⟩ <;> simp only [hlen] <;> omega
    refine ⟨hlen, rfl, rfl, hwf2, ?_⟩
    have hc1 := liveEvents_closed _ hwf2
    have hc0 := liveEvents_closed q ⟨hh, ht⟩
    rw [hc1, hc0]
    simp only [hlen]
    have hd1 : ringDist (2 * q.events.length) q.events_tail
        (q.events_head + q.events.length) =
        ringDist q.events.length q.events_tail q.events_head := by
      unfold ringDist
      split <;> split <;> omega
    rw [hd1]
    apply List.map_congr_left
    intro k hk
    simp only [List.mem_range] at hk
    have hdb : ringDist q.events.length q.events_tail q.events_head =
        q.events_head + q.events.length - q.events_tail := by
      unfold ringDist; split <;> omega
    have htk2 : q.events_tail + k < 2 * q.events.length := by omega
    rw [Nat.mod_eq_of_lt htk2]
    by_cases hsplit : q.events_tail + k < q.events.length
    · rw [Nat.mod_eq_of_lt hsplit]
      rw [List.append_assoc, vref_append_left hsplit]
    · have hge : q.events.length ≤ q.events_tail + k := by omega
      have hmod : (q.events_tail + k) % q.events.length =
          q.events_tail + k - q.events.length := by
        rw [Nat.mod_eq_sub_mod hge,
          Nat.mod_eq_of_lt (by omega)]
      rw [hmod]
      rw [List.append_assoc, vref_append_right hge]
      have hjh : q.events_tail + k - q.events.length < q.events_head := by
        omega
      have hlent : (q.events.take q.events_head).length = q.events_head := by
        simp [List.length_take]; omega
      rw [vref_append_left (by rw [hlent]; exact hjh)]
      exact vref_take hjh
  · rw [expand_eq_nonwrap q hw]
    have hlen : (q.events ++
        List.replicate q.events.length defaultEvent).length =
        2 * q.events.length := by
      simp; omega
    have hwf2 : WF { q with
        events := q.events ++
          List.replicate q.events.length defaultEvent } := by
      refine ⟨?_, ?_⟩ <;> simp only [hlen] <;> omega
    refine ⟨hlen, rfl, rfl, hwf2, ?_⟩
    have hc1 := liveEvents_closed _ hwf2
    have hc0 := liveEvents_closed q ⟨hh, ht⟩
    rw [hc1, hc0]
    simp only [hlen]
    have hd1 : ringDist (2 * q.events.length) q.events_tail q.events_head =
        ringDist q.events.length q.events_tail q.events_head := by
      unfold ringDist
      split <;> omega
    rw [hd1]
    apply List.map_congr_left
    intro k hk
    simp only [List.mem_range] at hk
    have hdb : ringDist q.events.length q.events_tail q.events_head =
        q.events_head - q.events_tail := by
      unfold ringDist; split <;> omega
    have hsplit : q.events_tail + k < q.events.length := by omega
    rw [Nat.mod_eq_of_lt (by omega), Nat.mod_eq_of_lt hsplit]
    exact vref_append_left hsplit

theorem full_iff_ringDist {c t h : Nat} (ht : t < c) (hh : h < c) :
    (h + 1) % c = t ↔ ringDist c t h = c - 1 := by
  rcases Nat.lt_or_ge (h + 1) c with h1 | h1
  · rw [Nat.mod_eq_of_lt h1]
    unfold ringDist
    split <;> omega
  · have hc : h + 1 = c := by omega
    have h0 : (h + 1) % c = 0 := by rw [hc, Nat.mod_self]
    rw [h0]
    unfold ringDist
    split <;> omega

theorem push_live (q : EventQueue) (hwf : WF q) (e : AllegroEvent) :
    liveEvents (al_event_queue_push_event q e) = liveEvents q ++ [e] ∧
    WF (al_event_queue_push_event q e) ∧
    (al_event_queue_push_event q e).sources = q.sources ∧
    (al_event_queue_push_event q e).events_tail = q.events_tail := by
  obtain ⟨s, ev, h, t⟩ := q
  obtain ⟨hh, ht⟩ := hwf
  simp only at hh ht
  by_cases hfull : (h + 1) % ev.length = t
  · -- full: the array expands first
    have hexp := expand_live ⟨s, ev, h, t⟩ ⟨hh, ht⟩
    set q1 := expand_events_array ⟨s, ev, h, t⟩ with hq1
    obtain ⟨hlen1, htail1, hsrc1, hwf1, hlive1⟩ := hexp
    obtain ⟨hh1, ht1⟩ := hwf1
    have hfree1 : (q1.events_head + 1) % q1.events.length ≠ q1.events_tail := by
      intro hcontra
      have hdist1 : ringDist q1.events.length q1.events_tail q1.events_head =
          q1.events.length - 1 := (full_iff_ringDist ht1 hh1).mp hcontra
      have hl1 := liveEvents_length q1 ⟨hh1, ht1⟩
      have hl0 := liveEvents_length ⟨s, ev, h, t⟩ ⟨hh, ht⟩
      have hdlt : ringDist ev.length t h < ev.length := ringDist_lt ht hh
      rw [hlive1] at hl1
      dsimp only at hl0 hlen1
      omega
    have hpush : al_event_queue_push_event ⟨s, ev, h, t⟩ e =
        ⟨q1.sources, q1.events.set q1.events_head e,
          (q1.events_head + 1) % q1.events.length, q1.events_tail⟩ := by
      simp [al_event_queue_push_event, alloc_event, circ_array_next,
        al_vector_size, hfull, ← hq1]
    rw [hpush]
    have hset := live_set_advance q1.sources q1.events q1.events_head
      q1.events_tail e hh1 ht1 hfree1
    have heta : (⟨q1.sources, q1.events, q1.events_head, q1.events_tail⟩ :
        EventQueue) = q1 := rfl
    rw [heta] at hset
    exact ⟨by rw [hset.1, hlive1], hset.2, hsrc1, htail1⟩
  · -- not full: write into the free slot and advance head
    have hpush : al_event_queue_push_event ⟨s, ev, h, t⟩ e =
        ⟨s, ev.set h e, (h + 1) % ev.length, t⟩ := by
      simp [al_event_queue_push_event, alloc_event, circ_array_next,
        al_vector_size, hfull]
    rw [hpush]
    have hset := live_set_advance s ev h t e hh ht hfull
    exact ⟨hset.1, hset.2, rfl, rfl⟩

/-! ### Operation-level characterizations -/

theorem get_peek_or_drop_empty (q : EventQueue)
    (h : al_event_queue_is_empty q = true) (buf : Option AllegroEvent)
    (del : Bool) :
    get_peek_or_drop_next_event q buf del = (false, buf, q) := by
  simp [get_peek_or_drop_next_event, get_next_event_if_any, h]

theorem al_get_next_event_cons (q : EventQueue) (hwf : WF q)
    (e : AllegroEvent) (rest : List AllegroEvent)
    (hl : liveEvents q = e :: rest) (r : AllegroEvent) :
    al_get_next_event q r =
      (true, e,
        { q with events_tail := circ_array_next q.events q.events_tail }) ∧
    liveEvents
      { q with events_tail := circ_array_next q.events q.events_tail } = rest ∧
    WF { q with events_tail := circ_array_next q.events q.events_tail } := by
  obtain ⟨hpop, hrest, hwf2⟩ := get_next_event_pop q hwf e rest hl
  refine ⟨?_, hrest, hwf2⟩
  simp [al_get_next_event, get_peek_or_drop_next_event, hpop]

theorem al_peek_next_event_cons (q : EventQueue) (hwf : WF q)
    (e : AllegroEvent) (rest : List AllegroEvent)
    (hl : liveEvents q = e :: rest) (r : AllegroEvent) :
    al_peek_next_event q r = (true, e, q) := by
  have hpeek := get_next_event_peek q hwf e rest hl
  simp [al_peek_next_event, get_peek_or_drop_next_event, hpeek]

theorem pushList_live (es : List AllegroEvent) :
    ∀ q : EventQueue, WF q →
    liveEvents (pushList q es) = liveEvents q ++ es ∧ WF (pushList q es) := by
  induction es with
  | nil => intro q hwf; simpa [pushList] using hwf
  | cons e es ih =>
      intro q hwf
      obtain ⟨h1, h2, _, _⟩ := push_live q hwf e
      have hrec := ih (al_event_queue_push_event q e) h2
      unfold pushList at hrec ⊢
      simp only [List.foldl_cons]
      rw [hrec.1, h1]
      exact ⟨by simp, hrec.2⟩

theorem popN_exact (l : List AllegroEvent) :
    ∀ q : EventQueue, WF q → liveEvents q = l →
    (popN q l.length).1 = l ∧ liveEvents (popN q l.length).2 = [] ∧
    WF (popN q l.length).2 := by
  induction l with
  | nil =>
      intro q hwf hl
      simp only [List.length_nil, popN]
      exact ⟨trivial, hl, hwf⟩
  | cons e rest ih =>
      intro q hwf hl
      obtain ⟨hget, hrest, hwf2⟩ := al_get_next_event_cons q hwf e rest hl
        defaultEvent
      have hrec := ih _ hwf2 hrest
      simp only [List.length_cons, popN, hget]
      match hp : popN { q with
          events_tail := circ_array_next q.events q.events_tail }
          rest.length with
      | (res, qf) =>
          rw [hp] at hrec
          simp only at hrec ⊢
          exact ⟨by rw [hrec.1], hrec.2.1, hrec.2.2⟩

/-! ### Discarding events of a source -/

theorem contains_eq_any (q : EventQueue) (source : Nat) :
    contains_event_of_source q source =
      (liveEvents q).any (fun e => e.source == source) := by
  unfold contains_event_of_source liveEvents
  generalize liveIdx q = idxs
  induction idxs with
  | nil => rfl
  | cons i idxs ih => simp [List.any_cons, ih]

theorem foldl_keep (old : List AllegroEvent) (source : Nat) :
    ∀ (idxs : List Nat) (acc : List AllegroEvent),
    idxs.foldl
      (fun acc i =>
        let old_event := al_vector_ref old i
        if old_event.source ≠ source then acc ++ [old_event] else acc) acc =
    acc ++ (idxs.map (al_vector_ref old)).filter
      (fun e => e.source != source) := by
  intro idxs
  induction idxs with
  | nil => intro acc; simp
  | cons i idxs ih =>
      intro acc
      simp only [List.foldl_cons, List.map_cons, List.filter_cons]
      by_cases hp : (al_vector_ref old i).source = source
      · simp only [hp, ne_eq, not_true_eq_false, if_false, bne_self_eq_false,
          Bool.false_eq_true]
        rw [ih acc]
      · have hbne : ((al_vector_ref old i).source != source) = true := by
          simp [hp]
        simp only [ne_eq, hp, not_false_eq_true, if_true, hbne]
        rw [ih (acc ++ [al_vector_ref old i])]
        simp

theorem discard_spec (q : EventQueue) (source : Nat)
    (hc : contains_event_of_source q source = true) :
    discard_events_of_source q source =
      { q with
          events :=
            (liveEvents q).filter (fun e => e.source != source) ++
            List.replicate
              (pot (((liveEvents q).filter
                    (fun e => e.source != source)).length + 1) -
                ((liveEvents q).filter (fun e => e.source != source)).length)
              defaultEvent
          events_tail := 0
          events_head :=
            ((liveEvents q).filter (fun e => e.source != source)).length } := by
  unfold discard_events_of_source
  rw [if_pos hc]
  have hfold := foldl_keep q.events source (liveIdx q) []
  simp only [List.nil_append] at hfold
  simp only [hfold]
  rfl

theorem live_of_compact (s : List Nat) (kept pad : List AllegroEvent)
    (hpad : 1 ≤ pad.length) :
    liveEvents ⟨s, kept ++ pad, kept.length, 0⟩ = kept ∧
    WF ⟨s, kept ++ pad, kept.length, 0⟩ := by
  have hlen : (kept ++ pad).length = kept.length + pad.length := by simp
  have hwf : WF ⟨s, kept ++ pad, kept.length, 0⟩ := by
    refine ⟨?_, ?_⟩ <;> simp only [hlen] <;> omega
  refine ⟨?_, hwf⟩
  rw [liveEvents_closed _ hwf]
  simp only [hlen]
  have hd : ringDist (kept.length + pad.length) 0 kept.length = kept.length := by
    unfold ringDist
    split <;> omega
  rw [hd]
  apply List.ext_getElem
  · simp
  · intro j hj1 hj2
    simp only [List.getElem_map, List.getElem_range]
    have hjk : j < kept.length := by simpa using hj2
    rw [Nat.zero_add, Nat.mod_eq_of_lt (by omega)]
    rw [vref_append_left hjk]
    simp [al_vector_ref, List.getD_eq_getElem?_getD, List.getElem?_eq_getElem hjk]

theorem discard_no_event (q : EventQueue) (source : Nat)
    (hc : contains_event_of_source q source = false) :
    discard_events_of_source q source = q := by
  simp [discard_events_of_source, hc]

theorem discard_full_spec (q : EventQueue) (source : Nat)
    (hc : contains_event_of_source q source = true) :
    liveEvents (discard_events_of_source q source) =
      (liveEvents q).filter (fun e => e.source != source) ∧
    (discard_events_of_source q source).events_tail = 0 ∧
    (discard_events_of_source q source).events_head =
      ((liveEvents q).filter (fun e => e.source != source)).length ∧
    (discard_events_of_source q source).events.length =
      pot (((liveEvents q).filter (fun e => e.source != source)).length + 1) ∧
    (discard_events_of_source q source).sources = q.sources ∧
    WF (discard_events_of_source q source) := by
  rw [discard_spec q source hc]
  set kept := (liveEvents q).filter (fun e => e.source != source) with hkept
  have hpot := pot_ge (kept.length + 1)
  have hcompact := live_of_compact q.sources kept
    (List.replicate (pot (kept.length + 1) - kept.length) defaultEvent)
    (by simp [List.length_replicate]; omega)
  have hlen : (kept ++ List.replicate
      (pot (kept.length + 1) - kept.length) defaultEvent).length =
      pot (kept.length + 1) := by
    simp [List.length_replicate]
    omega
  exact ⟨hcompact.1, rfl, rfl, hlen, rfl, hcompact.2⟩

theorem trivial_size_bound (q : EventQueue) (h1 : 1 ≤ q.events.length) :
    (q.events_head + q.events.length - q.events_tail) % q.events.length ≤
      q.events.length - 1 := by
  have h2 : (q.events_head + q.events.length - q.events_tail) %
      q.events.length < q.events.length := Nat.mod_lt _ (by omega)
  omega

theorem BufInv_of_WF_pow2 (q : EventQueue)
    (hpow : ∃ k, q.events.length = 2 ^ k) (hwf : WF q) : BufInv q := by
  obtain ⟨k, hk⟩ := hpow
  have h1 : 1 ≤ q.events.length := by
    rw [hk]; exact Nat.one_le_two_pow
  exact ⟨⟨k, hk⟩, h1, hwf.1, hwf.2, trivial_size_bound q h1⟩

theorem push_length (q : EventQueue) (hwf : WF q) (e : AllegroEvent) :
    (al_event_queue_push_event q e).events.length = q.events.length ∨
    (al_event_queue_push_event q e).events.length = 2 * q.events.length := by
  obtain ⟨s, ev, h, t⟩ := q
  obtain ⟨hh, ht⟩ := hwf
  simp only at hh ht
  by_cases hfull : (h + 1) % ev.length = t
  · right
    have hexp := expand_live ⟨s, ev, h, t⟩ ⟨hh, ht⟩
    set q1 := expand_events_array ⟨s, ev, h, t⟩ with hq1
    have hpush : al_event_queue_push_event ⟨s, ev, h, t⟩ e =
        ⟨q1.sources, q1.events.set q1.events_head e,
          (q1.events_head + 1) % q1.events.length, q1.events_tail⟩ := by
      simp [al_event_queue_push_event, alloc_event, circ_array_next,
        al_vector_size, hfull, ← hq1]
    rw [hpush]
    simpa using hexp.1
  · left
    have hpush : al_event_queue_push_event ⟨s, ev, h, t⟩ e =
        ⟨s, ev.set h e, (h + 1) % ev.length, t⟩ := by
      simp [al_event_queue_push_event, alloc_event, circ_array_next,
        al_vector_size, hfull]
    rw [hpush]
    simp

theorem push_BufInv (q : EventQueue) (hinv : BufInv q) (e : AllegroEvent) :
    BufInv (al_event_queue_push_event q e) := by
  obtain ⟨⟨k, hk⟩, h1, hh, ht, _⟩ := hinv
  have hwf : WF q := ⟨hh, ht⟩
  obtain ⟨_, hwf2, _, _⟩ := push_live q hwf e
  refine BufInv_of_WF_pow2 _ ?_ hwf2
  rcases push_length q hwf e with hl | hl
  · exact ⟨k, by rw [hl, hk]⟩
  · exact ⟨k + 1, by rw [hl, hk]; ring⟩

theorem peek_queue_unchanged (q : EventQueue) (r : AllegroEvent) :
    (al_peek_next_event q r).2.2 = q := by
  unfold al_peek_next_event get_peek_or_drop_next_event get_next_event_if_any
  by_cases h : al_event_queue_is_empty q = true <;> simp [h]

theorem pop_BufInv (q : EventQueue) (hinv : BufInv q) (r : AllegroEvent) :
    BufInv (al_get_next_event q r).2.2 := by
  obtain ⟨hpow, h1, hh, ht, _⟩ := hinv
  have hwf : WF q := ⟨hh, ht⟩
  cases hl : liveEvents q with
  | nil =>
      have hemp : al_event_queue_is_empty q = true :=
        (is_empty_iff_live_nil q hwf).mpr hl
      have := get_peek_or_drop_empty q hemp (some r) true
      simp [al_get_next_event, this]
      exact BufInv_of_WF_pow2 q hpow hwf
  | cons e rest =>
      obtain ⟨hget, _, hwf2⟩ := al_get_next_event_cons q hwf e rest hl r
      rw [hget]
      exact BufInv_of_WF_pow2 _ hpow hwf2

theorem drop_BufInv (q : EventQueue) (hinv : BufInv q) :
    BufInv (al_drop_next_event q) := by
  obtain ⟨hpow, h1, hh, ht, _⟩ := hinv
  have hwf : WF q := ⟨hh, ht⟩
  cases hl : liveEvents q with
  | nil =>
      have hemp : al_event_queue_is_empty q = true :=
        (is_empty_iff_live_nil q hwf).mpr hl
      have := get_peek_or_drop_empty q hemp none true
      simp [al_drop_next_event, this]
      exact BufInv_of_WF_pow2 q hpow hwf
  | cons e rest =>
      obtain ⟨hpop, _, hwf2⟩ := get_next_event_pop q hwf e rest hl
      simp [al_drop_next_event, get_peek_or_drop_next_event, hpop]
      exact BufInv_of_WF_pow2 _ hpow hwf2

theorem flush_BufInv (q : EventQueue) (hinv : BufInv q) :
    BufInv (al_flush_event_queue q) := by
  obtain ⟨⟨k, hk⟩, h1, hh, ht, _⟩ := hinv
  refine BufInv_of_WF_pow2 _ ⟨k, hk⟩ ⟨?_, ?_⟩ <;>
    simp [al_flush_event_queue] <;> omega

theorem discard_BufInv (q : EventQueue) (hinv : BufInv q) (source : Nat) :
    BufInv (discard_events_of_source q source) := by
  obtain ⟨hpow, h1, hh, ht, _⟩ := hinv
  cases hc : contains_event_of_source q source with
  | false =>
      rw [discard_no_event q source hc]
      exact BufInv_of_WF_pow2 q hpow ⟨hh, ht⟩
  | true =>
      obtain ⟨_, _, _, hlen, _, hwf2⟩ := discard_full_spec q source hc
      refine BufInv_of_WF_pow2 _ ?_ hwf2
      rw [hlen]
      exact pot_pow2 _

theorem create_BufInv : BufInv al_create_event_queue := by
  refine ⟨⟨0, rfl⟩, ?_, ?_, ?_, ?_⟩ <;> simp [al_create_event_queue]

theorem any_filter_ne_self (l : List AllegroEvent) (s : Nat) :
    ((l.filter (fun e => e.source != s)).any (fun e => e.source == s)) =
      false := by
  induction l with
  | nil => rfl
  | cons e l ih =>
      by_cases hp : e.source = s <;>
        simp [List.filter_cons, hp, List.any_cons, ih]

theorem create_WF : WF al_create_event_queue :=
  ⟨Nat.one_pos, Nat.one_pos⟩

/-! ### The claims -/

/-- C1: events pushed in order e1, ..., en (single thread) into an empty
well-formed queue are returned by n successive successful al_get_next_event
calls in exactly that order — none lost, duplicated, or reordered. -/
theorem C1_fifo_order (q : EventQueue) (es : List AllegroEvent)
    (hwf : WF q) (hemp : al_event_queue_is_empty q = true) :
    (popN (pushList q es) es.length).1 = es := by
  have hnil := (is_empty_iff_live_nil q hwf).mp hemp
  obtain ⟨hlive, hwf2⟩ := pushList_live es q hwf
  rw [hnil, List.nil_append] at hlive
  exact (popN_exact es _ hwf2 hlive).1

theorem C1_fifo_order_witness :
    (popN (pushList al_create_event_queue
        [⟨1, 10⟩, ⟨2, 20⟩, ⟨1, 30⟩]) 3).1 = [⟨1, 10⟩, ⟨2, 20⟩, ⟨1, 30⟩] :=
  C1_fifo_order al_create_event_queue [⟨1, 10⟩, ⟨2, 20⟩, ⟨1, 30⟩]
    create_WF rfl

/-- C4 counterexample: the claim says a fresh queue's storage capacity is
exactly 2, but al_create_event_queue calls _al_vector_alloc_back exactly
once, so the events vector has size 1. -/
theorem C4_capacity_counterexample :
    ¬ (al_create_event_queue.events.length = 2) := by decide

/-- C4 (amended): a queue returned by al_create_event_queue is empty
(head = tail = 0, is_empty true), has an empty source registry, and its
circular buffer has storage capacity exactly 1 (the single slot is the
reserved one, hence usable capacity 0: the first push triggers growth). -/
theorem C4_create_state :
    al_create_event_queue.events_head = al_create_event_queue.events_tail ∧
    al_event_queue_is_empty al_create_event_queue = true ∧
    al_create_event_queue.sources = [] ∧
    al_create_event_queue.events.length = 1 :=
  ⟨rfl, rfl, rfl, rfl⟩

/-- C6: on an empty queue, al_get_next_event and al_peek_next_event return
false and al_drop_next_event does nothing, each leaving the queue state
(head, tail, buffer, capacity, registry) unchanged and the caller's buffer
untouched; a freshly created queue is empty. -/
theorem C6_empty_semantics (q : EventQueue) (r : AllegroEvent)
    (hemp : al_event_queue_is_empty q = true) :
    al_get_next_event q r = (false, r, q) ∧
    al_peek_next_event q r = (false, r, q) ∧
    al_drop_next_event q = q ∧
    al_event_queue_is_empty al_create_event_queue = true := by
  have h1 := get_peek_or_drop_empty q hemp (some r) true
  have h2 := get_peek_or_drop_empty q hemp (some r) false
  have h3 := get_peek_or_drop_empty q hemp none true
  refine ⟨?_, ?_, ?_, rfl⟩
  · simp [al_get_next_event, h1]
  · simp [al_peek_next_event, h2]
  · simp [al_drop_next_event, h3]

theorem C6_empty_semantics_witness :
    al_get_next_event al_create_event_queue ⟨3, 4⟩ =
      (false, ⟨3, 4⟩, al_create_event_queue) ∧
    al_peek_next_event al_create_event_queue ⟨3, 4⟩ =
      (false, ⟨3, 4⟩, al_create_event_queue) ∧
    al_drop_next_event al_create_event_queue = al_create_event_queue ∧
    al_event_queue_is_empty al_create_event_queue = true :=
  C6_empty_semantics al_create_event_queue ⟨3, 4⟩ rfl

/-- C7: registering an already-registered source is a no-op (the registry
keeps exactly one entry for it and the source is not re-notified);
unregistering a source that is not registered changes no state at all and
issues no notification. -/
theorem C7_registration_idempotent (q : EventQueue) (s : Nat)
    (hnew : q.sources.contains s = false) :
    (al_register_event_source q s).1.sources.count s = 1 ∧
    al_register_event_source (al_register_event_source q s).1 s =
      ((al_register_event_source q s).1, false) ∧
    al_unregister_event_source q s = (q, false) := by
  have hmem : s ∉ q.sources := by simpa using hnew
  have hreg1 : al_register_event_source q s =
      ({ q with sources := q.sources ++ [s] }, true) := by
    simp [al_register_event_source, hmem]
  refine ⟨?_, ?_, ?_⟩
  · rw [hreg1]
    simp [List.count_append, List.count_eq_zero_of_not_mem hmem]
  · rw [hreg1]
    have hc2 : (q.sources ++ [s]).contains s = true := by simp
    simp [al_register_event_source, hc2]
  · have herase : q.sources.erase s = q.sources :=
      List.erase_of_not_mem hmem
    simp [al_unregister_event_source, hmem, herase]


theorem C7_registration_idempotent_witness :
    (al_register_event_source al_create_event_queue 9).1.sources.count 9 = 1 ∧
    al_register_event_source
        (al_register_event_source al_create_event_queue 9).1 9 =
      ((al_register_event_source al_create_event_queue 9).1, false) ∧
    al_unregister_event_source al_create_event_queue 9 =
      (al_create_event_queue, false) :=
  C7_registration_idempotent al_create_event_queue 9 rfl

/-- C10: on an empty queue, get/peek never write to the caller's ret_event
buffer: the buffer contents after the call (middle component) are
byte-for-byte the contents before, for every buffer and for NULL. -/
theorem C10_no_write_on_empty (q : EventQueue) (buf : Option AllegroEvent)
    (del : Bool) (r : AllegroEvent)
    (hemp : al_event_queue_is_empty q = true) :
    (get_peek_or_drop_next_event q buf del).2.1 = buf ∧
    (al_get_next_event q r).2.1 = r ∧
    (al_peek_next_event q r).2.1 = r := by
  have h := get_peek_or_drop_empty q hemp buf del
  have h1 := get_peek_or_drop_empty q hemp (some r) true
  have h2 := get_peek_or_drop_empty q hemp (some r) false
  refine ⟨?_, ?_, ?_⟩
  · rw [h]
  · simp [al_get_next_event, h1]
  · simp [al_peek_next_event, h2]

theorem C10_no_write_on_empty_witness :
    (get_peek_or_drop_next_event al_create_event_queue
        (some ⟨5, 6⟩) true).2.1 = some ⟨5, 6⟩ ∧
    (al_get_next_event al_create_event_queue ⟨5, 6⟩).2.1 = (⟨5, 6⟩ : AllegroEvent) ∧
    (al_peek_next_event al_create_event_queue ⟨5, 6⟩).2.1 = (⟨5, 6⟩ : AllegroEvent) :=
  C10_no_write_on_empty al_create_event_queue (some ⟨5, 6⟩) true ⟨5, 6⟩ rfl

/-- C8: on a non-empty well-formed queue whose oldest unread event is e, two
successive al_peek_next_event calls both return e and leave the queue (head
and tail included) unchanged, and a subsequent al_get_next_event returns
the same e and removes it by advancing tail past it. -/
theorem C8_peek_idempotent (q : EventQueue) (e : AllegroEvent)
    (rest : List AllegroEvent) (r1 r2 r3 : AllegroEvent)
    (hwf : WF q) (hl : liveEvents q = e :: rest) :
    al_peek_next_event q r1 = (true, e, q) ∧
    al_peek_next_event q r2 = (true, e, q) ∧
    al_get_next_event q r3 =
      (true, e,
        { q with events_tail := circ_array_next q.events q.events_tail }) ∧
    liveEvents
      { q with events_tail := circ_array_next q.events q.events_tail } =
      rest := by
  obtain ⟨hget, hrest, _⟩ := al_get_next_event_cons q hwf e rest hl r3
  exact ⟨al_peek_next_event_cons q hwf e rest hl r1,
    al_peek_next_event_cons q hwf e rest hl r2, hget, hrest⟩

theorem C8_peek_idempotent_witness :
    al_peek_next_event ⟨[], [⟨1, 42⟩, ⟨0, 0⟩], 1, 0⟩ ⟨9, 9⟩ =
      (true, ⟨1, 42⟩, ⟨[], [⟨1, 42⟩, ⟨0, 0⟩], 1, 0⟩) ∧
    al_peek_next_event ⟨[], [⟨1, 42⟩, ⟨0, 0⟩], 1, 0⟩ ⟨8, 8⟩ =
      (true, ⟨1, 42⟩, ⟨[], [⟨1, 42⟩, ⟨0, 0⟩], 1, 0⟩) ∧
    al_get_next_event ⟨[], [⟨1, 42⟩, ⟨0, 0⟩], 1, 0⟩ ⟨7, 7⟩ =
      (true, ⟨1, 42⟩, ⟨[], [⟨1, 42⟩, ⟨0, 0⟩], 1, 1⟩) ∧
    liveEvents ⟨[], [⟨1, 42⟩, ⟨0, 0⟩], 1, 1⟩ = [] :=
  C8_peek_idempotent ⟨[], [⟨1, 42⟩, ⟨0, 0⟩], 1, 0⟩ ⟨1, 42⟩ [] ⟨9, 9⟩ ⟨8, 8⟩
    ⟨7, 7⟩ ⟨by decide, by decide⟩ (by decide)

/-- C5: create yields a state satisfying the circular-buffer invariant
(capacity a power of two, at least 1, head and tail in range, at least one
slot unused), and push, pop, peek, drop, flush and discard-by-source all
preserve it. -/
theorem C5_invariant_preservation (q : EventQueue) (e : AllegroEvent)
    (source : Nat) (r : AllegroEvent) (hinv : BufInv q) :
    BufInv al_create_event_queue ∧
    BufInv (al_event_queue_push_event q e) ∧
    BufInv (al_get_next_event q r).2.2 ∧
    BufInv (al_peek_next_event q r).2.2 ∧
    BufInv (al_drop_next_event q) ∧
    BufInv (al_flush_event_queue q) ∧
    BufInv (discard_events_of_source q source) :=
  ⟨create_BufInv, push_BufInv q hinv e, pop_BufInv q hinv r,
    by rw [peek_queue_unchanged]; exact hinv, drop_BufInv q hinv,
    flush_BufInv q hinv, discard_BufInv q hinv source⟩

theorem C5_invariant_preservation_witness :
    BufInv al_create_event_queue ∧
    BufInv (al_event_queue_push_event al_create_event_queue ⟨1, 2⟩) ∧
    BufInv (al_get_next_event al_create_event_queue ⟨0, 0⟩).2.2 ∧
    BufInv (al_peek_next_event al_create_event_queue ⟨0, 0⟩).2.2 ∧
    BufInv (al_drop_next_event al_create_event_queue) ∧
    BufInv (al_flush_event_queue al_create_event_queue) ∧
    BufInv (discard_events_of_source al_create_event_queue 1) :=
  C5_invariant_preservation al_create_event_queue ⟨1, 2⟩ 1 ⟨0, 0⟩
    create_BufInv

/-- C9: al_wait_for_event_timed with a zero-or-negative timeout is a single
non-blocking check: on a non-empty queue it returns true, popping the
oldest event into ret_event when ret_event is non-NULL (and consuming
nothing when ret_event is NULL); on an empty queue it returns false (the
timeout indication) leaving the queue and the caller's buffer untouched. -/
theorem C9_zero_timeout (q : EventQueue) (ret : AllegroEvent) (secs : Int)
    (hsecs : secs ≤ 0) :
    (al_event_queue_is_empty q = true →
      al_wait_for_event_timed q (some ret) secs = some (false, some ret, q) ∧
      al_wait_for_event_timed q none secs = some (false, none, q)) ∧
    (al_event_queue_is_empty q = false →
      al_wait_for_event_timed q (some ret) secs =
        some (true, some (al_vector_ref q.events q.events_tail),
          { q with
              events_tail := circ_array_next q.events q.events_tail }) ∧
      al_wait_for_event_timed q none secs = some (true, none, q)) := by
  have htw : al_cond_timedwait
      (if secs < 0 then al_init_timeout 0 else al_init_timeout secs) = -1 := by
    unfold al_cond_timedwait al_init_timeout
    split <;> simp <;> omega
  constructor
  · intro hemp
    constructor <;> simp [al_wait_for_event_timed, do_wait_for_event, hemp, htw]
  · intro hne
    have hget : get_next_event_if_any q true =
        (some (al_vector_ref q.events q.events_tail),
          { q with events_tail := circ_array_next q.events q.events_tail }) := by
      simp [get_next_event_if_any, hne]
    constructor
    · simp [al_wait_for_event_timed, do_wait_for_event, hne, hget]
    · simp [al_wait_for_event_timed, do_wait_for_event, hne]

theorem C9_zero_timeout_witness :
    al_wait_for_event_timed al_create_event_queue (some ⟨2, 2⟩) (-1) =
      some (false, some ⟨2, 2⟩, al_create_event_queue) ∧
    al_wait_for_event_timed ⟨[], [⟨1, 42⟩, ⟨0, 0⟩], 1, 0⟩ (some ⟨2, 2⟩) 0 =
      some (true, some ⟨1, 42⟩, ⟨[], [⟨1, 42⟩, ⟨0, 0⟩], 1, 1⟩) :=
  ⟨((C9_zero_timeout al_create_event_queue ⟨2, 2⟩ (-1) (by decide)).1 rfl).1,
   ((C9_zero_timeout ⟨[], [⟨1, 42⟩, ⟨0, 0⟩], 1, 0⟩ ⟨2, 2⟩ 0
      (by decide)).2 rfl).1⟩

/-- C2: when a push finds the buffer full, the capacity is doubled, and in
the wrapped case (head < tail) the prefix [0, head) is copied to
[oldC, oldC + head) and head rebased to oldC + head; in every case
(wrapped included) the unread events after growth are exactly the unread
events before growth, in the same order. -/
theorem C2_growth_correct (q : EventQueue) (hwf : WF q)
    (hfull : circ_array_next q.events q.events_head = q.events_tail) :
    (expand_events_array q).events.length = 2 * q.events.length ∧
    (q.events_head < q.events_tail →
      (∀ i, i < q.events_head →
        al_vector_ref (expand_events_array q).events (q.events.length + i) =
          al_vector_ref q.events i) ∧
      (expand_events_array q).events_head =
        q.events_head + q.events.length) ∧
    liveEvents (expand_events_array q) = liveEvents q := by
  obtain ⟨hlen, htail, hsrc, hwf2, hlive⟩ := expand_live q hwf
  refine ⟨hlen, ?_, hlive⟩
  intro hw
  rw [expand_eq_wrap q hw hwf.2]
  constructor
  · intro i hi
    rw [List.append_assoc, vref_append_right (by omega)]
    have hsub : q.events.length + i - q.events.length = i := by omega
    rw [hsub]
    have hlent : (q.events.take q.events_head).length = q.events_head := by
      have := hwf.1
      simp [List.length_take]
      omega
    rw [vref_append_left (by rw [hlent]; exact hi)]
    exact vref_take hi
  · rfl

theorem C2_growth_correct_witness :
    (expand_events_array
        ⟨[], [⟨0, 10⟩, ⟨0, 11⟩, ⟨0, 12⟩, ⟨0, 13⟩], 1, 2⟩).events.length = 8 ∧
    (expand_events_array
        ⟨[], [⟨0, 10⟩, ⟨0, 11⟩, ⟨0, 12⟩, ⟨0, 13⟩], 1, 2⟩).events_head = 5 ∧
    al_vector_ref (expand_events_array
        ⟨[], [⟨0, 10⟩, ⟨0, 11⟩, ⟨0, 12⟩, ⟨0, 13⟩], 1, 2⟩).events 4 =
      al_vector_ref [⟨0, 10⟩, ⟨0, 11⟩, ⟨0, 12⟩, ⟨0, 13⟩] 0 ∧
    liveEvents (expand_events_array
        ⟨[], [⟨0, 10⟩, ⟨0, 11⟩, ⟨0, 12⟩, ⟨0, 13⟩], 1, 2⟩) =
      liveEvents ⟨[], [⟨0, 10⟩, ⟨0, 11⟩, ⟨0, 12⟩, ⟨0, 13⟩], 1, 2⟩ :=
  ⟨(C2_growth_correct ⟨[], [⟨0, 10⟩, ⟨0, 11⟩, ⟨0, 12⟩, ⟨0, 13⟩], 1, 2⟩
      ⟨by decide, by decide⟩ (by decide)).1,
   ((C2_growth_correct ⟨[], [⟨0, 10⟩, ⟨0, 11⟩, ⟨0, 12⟩, ⟨0, 13⟩], 1, 2⟩
      ⟨by decide, by decide⟩ (by decide)).2.1 (by decide)).2,
   ((C2_growth_correct ⟨[], [⟨0, 10⟩, ⟨0, 11⟩, ⟨0, 12⟩, ⟨0, 13⟩], 1, 2⟩
      ⟨by decide, by decide⟩ (by decide)).2.1 (by decide)).1 0 (by decide),
   (C2_growth_correct ⟨[], [⟨0, 10⟩, ⟨0, 11⟩, ⟨0, 12⟩, ⟨0, 13⟩], 1, 2⟩
      ⟨by decide, by decide⟩ (by decide)).2.2⟩

/-- C3: on a well-formed queue holding at least one event of the registered
source A, al_unregister_event_source(A) runs the discard pass: the
remaining unread events are exactly those whose source is not A, in their
original relative order; tail is reset to 0, head equals the retained
count, the new capacity is pot(retained + 1) — a power of two, at least
retained + 1, and minimal among powers of two above retained + 1 — and
contains_event_of_source(A) is false afterwards. -/
theorem C3_unregister_discards (q : EventQueue) (A : Nat) (hwf : WF q)
    (hreg : q.sources.contains A = true)
    (hev : contains_event_of_source q A = true) :
    liveEvents (al_unregister_event_source q A).1 =
      (liveEvents q).filter (fun e => e.source != A) ∧
    (al_unregister_event_source q A).1.events_tail = 0 ∧
    (al_unregister_event_source q A).1.events_head =
      ((liveEvents q).filter (fun e => e.source != A)).length ∧
    (al_unregister_event_source q A).1.events.length =
      pot (((liveEvents q).filter (fun e => e.source != A)).length + 1) ∧
    (∃ k, (al_unregister_event_source q A).1.events.length = 2 ^ k) ∧
    ((liveEvents q).filter (fun e => e.source != A)).length + 1 ≤
      (al_unregister_event_source q A).1.events.length ∧
    (∀ m, ((liveEvents q).filter (fun e => e.source != A)).length + 1 ≤ 2 ^ m →
      (al_unregister_event_source q A).1.events.length ≤ 2 ^ m) ∧
    contains_event_of_source (al_unregister_event_source q A).1 A = false := by
  have hun : (al_unregister_event_source q A).1 =
      discard_events_of_source
        { q with sources := q.sources.erase A } A := by
    simp only [al_unregister_event_source, hreg, if_true]
  have hev1 : contains_event_of_source
      { q with sources := q.sources.erase A } A = true := hev
  obtain ⟨hlive, htail, hhead, hlen, hsrc, hwf2⟩ :=
    discard_full_spec { q with sources := q.sources.erase A } A hev1
  have hlq : liveEvents { q with sources := q.sources.erase A } =
      liveEvents q := rfl
  rw [hlq] at hlive hhead hlen
  rw [hun]
  refine ⟨hlive, htail, hhead, hlen, ?_, ?_, ?_, ?_⟩
  · rw [hlen]; exact pot_pow2 _
  · rw [hlen]; exact pot_ge _
  · intro m hm
    rw [hlen]
    exact pot_le_pow2 hm
  · rw [contains_eq_any, hlive]
    exact any_filter_ne_self (liveEvents q) A

theorem C3_unregister_discards_witness :
    liveEvents (al_unregister_event_source
        ⟨[5, 7], [⟨5, 1⟩, ⟨7, 2⟩, ⟨5, 3⟩, ⟨0, 0⟩], 3, 0⟩ 5).1 = [⟨7, 2⟩] ∧
    (al_unregister_event_source
        ⟨[5, 7], [⟨5, 1⟩, ⟨7, 2⟩, ⟨5, 3⟩, ⟨0, 0⟩], 3, 0⟩ 5).1.events_tail
      = 0 ∧
    (al_unregister_event_source
        ⟨[5, 7], [⟨5, 1⟩, ⟨7, 2⟩, ⟨5, 3⟩, ⟨0, 0⟩], 3, 0⟩ 5).1.events_head
      = 1 ∧
    (al_unregister_event_source
        ⟨[5, 7], [⟨5, 1⟩, ⟨7, 2⟩, ⟨5, 3⟩, ⟨0, 0⟩], 3, 0⟩ 5).1.events.length
      = 2 ∧
    contains_event_of_source (al_unregister_event_source
        ⟨[5, 7], [⟨5, 1⟩, ⟨7, 2⟩, ⟨5, 3⟩, ⟨0, 0⟩], 3, 0⟩ 5).1 5 = false := by
  have h := C3_unregister_discards
    ⟨[5, 7], [⟨5, 1⟩, ⟨7, 2⟩, ⟨5, 3⟩, ⟨0, 0⟩], 3, 0⟩ 5
    ⟨by decide, by decide⟩ (by decide) (by decide)
  refine ⟨?_, h.2.1, ?_, ?_, h.2.2.2.2.2.2.2⟩
  · rw [h.1]; decide
  · rw [h.2.2.1]; decide
  · rw [h.2.2.2.1]; decide
